import Mathlib

/-!
Verification of the Poisson-NLM gradient filter (`cpp/poisson_nlm.cpp`).

The C++ kernel is shallowly embedded over exact rationals `ℚ`.  The two
transcendental library routines `std::sqrt` and `std::exp` are abstracted as
explicit function parameters `sqrtq expq : ℚ → ℚ`; every other arithmetic
operation of the source is translated literally (float/double arithmetic is
idealised as exact rational arithmetic).  `std::nth_element`, whose ordering
of tied elements is left unspecified by the C++ standard, is abstracted as a
selection-function parameter constrained by the contract `selContract` that
`nth_element` guarantees.
-/

namespace PoissonNLM

/-- `std::round`: rounding to the nearest integer, halfway cases away from
zero. -/
def croundQ (x : ℚ) : ℤ :=
  if 0 ≤ x then ⌊x + 1/2⌋ else ⌈x - 1/2⌉

/-- Quantization used by `dlut_query`:
`qx = std::round(lx / lam_quant) * lam_quant`. -/
def quantize (x step : ℚ) : ℚ :=
  (croundQ (x / step) : ℚ) * step

/-- The Poisson PMF recurrence named by the spec:
`p(0) = e^(−λ)`, `p(r) = p(r−1)·λ/r`. -/
def pmfRec (expq : ℚ → ℚ) (l : ℚ) : ℕ → ℚ
  | 0 => expq (-l)
  | r + 1 => pmfRec expq l r * l / ((r + 1 : ℕ) : ℚ)

/-- The accumulator loop of `poisson_L2_distance` (source lines 41-50):
state `(px_prev, py_prev, d)` after `n` iterations of
`for (int r = 1; r <= Rmax; ++r)`. -/
def pdIter (expq : ℚ → ℚ) (lx ly : ℚ) : ℕ → ℚ × ℚ × ℚ
  | 0 =>
      (expq (-lx), expq (-ly),
        (expq (-lx) - expq (-ly)) * (expq (-lx) - expq (-ly)))
  | n + 1 =>
      let s := pdIter expq lx ly n
      let px := s.1 * lx / ((n + 1 : ℕ) : ℚ)
      let py := s.2.1 * ly / ((n + 1 : ℕ) : ℚ)
      (px, py, s.2.2 + (px - py) * (px - py))

/-- The truncation bound of the source (line 38):
`Rmax = int(ceil(lmax + 6.0*sqrt(max(lmax, 1e-12))))`. -/
def poissonRmax (sqrtq : ℚ → ℚ) (lx ly : ℚ) : ℤ :=
  ⌈max lx ly + 6 * sqrtq (max (max lx ly) (1 / 1000000000000))⌉

/-- `poisson_L2_distance` (source lines 35-52). -/
def poisson_L2_distance (sqrtq expq : ℚ → ℚ) (lx ly : ℚ) : ℚ :=
  if lx ≤ 0 ∧ ly ≤ 0 then 0
  else (pdIter expq lx ly (poissonRmax sqrtq lx ly).toNat).2.2

/-- Pure value of `dlut_query` (source lines 54-71): quantize both rates,
then the memoized `poisson_L2_distance` of the quantized pair.  Theorem
`dlut_query_pure_memo` below proves that the stateful cache version always
returns this value, which justifies using the pure function in the model of
the main loop. -/
def dlut_query (sqrtq expq : ℚ → ℚ) (lx ly lamq : ℚ) : ℚ :=
  poisson_L2_distance sqrtq expq (quantize lx lamq) (quantize ly lamq)

/-- The process-wide distance cache `g_dlut`: an association list from
quantized key pairs to stored distances (`struct Key` holds the two
quantized rates). -/
abbrev Cache : Type := List ((ℚ × ℚ) × ℚ)

/-- Stateful `dlut_query` (source lines 54-71): look the quantized key up;
on a miss compute `poisson_L2_distance(qx, qy)` and insert it. -/
def dlutQueryS (sqrtq expq : ℚ → ℚ) (st : Cache) (lx ly lamq : ℚ) :
    ℚ × Cache :=
  let qx := quantize lx lamq
  let qy := quantize ly lamq
  match st.find? (fun e => decide (e.1 = (qx, qy))) with
  | some e => (e.2, st)
  | none =>
      let v := poisson_L2_distance sqrtq expq qx qy
      (v, ((qx, qy), v) :: st)

/-- Cache states reachable from the empty cache by sequences of queries. -/
inductive Reachable (sqrtq expq : ℚ → ℚ) : Cache → Prop
  | nil : Reachable sqrtq expq []
  | step (st : Cache) (lx ly lamq : ℚ) :
      Reachable sqrtq expq st →
      Reachable sqrtq expq (dlutQueryS sqrtq expq st lx ly lamq).2

/-! ### Loop-invariant lemmas for the distance loop -/

lemma pdIter_fst (expq : ℚ → ℚ) (lx ly : ℚ) :
    ∀ n, (pdIter expq lx ly n).1 = pmfRec expq lx n := by
  intro n
  induction n with
  | zero => rfl
  | succ n ih => simp [pdIter, pmfRec, ih]

lemma pdIter_snd (expq : ℚ → ℚ) (lx ly : ℚ) :
    ∀ n, (pdIter expq lx ly n).2.1 = pmfRec expq ly n := by
  intro n
  induction n with
  | zero => rfl
  | succ n ih => simp [pdIter, pmfRec, ih]

lemma pdIter_acc (expq : ℚ → ℚ) (lx ly : ℚ) :
    ∀ n, (pdIter expq lx ly n).2.2 =
      Finset.sum (Finset.range (n + 1)) (fun r =>
        (pmfRec expq lx r - pmfRec expq ly r) *
        (pmfRec expq lx r - pmfRec expq ly r)) := by
  intro n
  induction n with
  | zero => simp [pdIter, pmfRec]
  | succ n ih =>
      rw [Finset.sum_range_succ, ← ih]
      simp [pdIter, pmfRec, pdIter_fst, pdIter_snd]

lemma pdIter_swap (expq : ℚ → ℚ) (lx ly : ℚ) :
    ∀ n, pdIter expq ly lx n =
      ((pdIter expq lx ly n).2.1, (pdIter expq lx ly n).1,
        (pdIter expq lx ly n).2.2) := by
  intro n
  induction n with
  | zero => simp [pdIter]; ring
  | succ n ih => simp [pdIter, ih]; ring

lemma pdIter_self_acc (expq : ℚ → ℚ) (l : ℚ) :
    ∀ n, (pdIter expq l l n).1 = (pdIter expq l l n).2.1 ∧
      (pdIter expq l l n).2.2 = 0 := by
  intro n
  induction n with
  | zero => simp [pdIter]
  | succ n ih => simp [pdIter, ih.1, ih.2]

lemma poisson_L2_distance_self (sqrtq expq : ℚ → ℚ) (l : ℚ) :
    poisson_L2_distance sqrtq expq l l = 0 := by
  unfold poisson_L2_distance
  by_cases h : l ≤ 0 ∧ l ≤ 0
  · simp [h]
  · simp [h, (pdIter_self_acc expq l _).2]

/-! ### The main filter `poisson_nlm_on_gradient_exact_cpp` -/

/-- All inputs of one invocation of the kernel.  `sqrtq`/`expq` stand for
`std::sqrt`/`std::exp`, `sel` for the index selection that
`std::nth_element` followed by `resize(topk)` performs (given the candidate
distances and `topk`, it returns the kept positions in order).  `gx`/`gy`
are the flattened row-major input grids, the remaining fields are the
scalar arguments of the C++ entry point. -/
structure Cfg where
  sqrtq : ℚ → ℚ
  expq : ℚ → ℚ
  sel : List ℚ → ℕ → List ℕ
  gx : ℕ → ℚ
  gy : ℕ → ℚ
  H : ℕ
  W : ℕ
  sr : ℕ
  pr : ℕ
  rho : ℚ
  ctm : ℚ
  lamq : ℚ
  topk : ℤ

/-- `sum_mag` (source lines 104-109): the reduction loop
`for i < H*W: sum_mag += sqrt(gx*gx + gy*gy)`. -/
def sum_magAt (c : Cfg) : ℚ :=
  (List.range (c.H * c.W)).foldl
    (fun s i => s + c.sqrtq (c.gx i * c.gx i + c.gy i * c.gy i)) 0

/-- `count_scale` (source lines 110-111):
`gm = sum_mag/(H*W); count_scale = (gm > 1e-12) ? ctm/gm : 1.0`. -/
def count_scaleAt (c : Cfg) : ℚ :=
  let gm := sum_magAt c / ((c.H * c.W : ℕ) : ℚ)
  if 1 / 1000000000000 < gm then c.ctm / gm else 1

/-- The rate map `lam` (source lines 114-120):
`lam[i] = max(0, sqrt(gx*gx+gy*gy) * count_scale)`. -/
def lamAt (c : Cfg) (i : ℕ) : ℚ :=
  max 0 (c.sqrtq (c.gx i * c.gx i + c.gy i * c.gy i) * count_scaleAt c)

/-- The clipped box mean `lam_hat` (source lines 123-139): the window is
`[y0, y1) × [x0, x1)` with `y0 = max(0, y−pr)`, `y1 = min(H, y+pr+1)` (and
analogously for `x`), the sum is divided by `max(1, cnt)` where `cnt` is
the window cell count. -/
def lam_hatAt (c : Cfg) (y x : ℕ) : ℚ :=
  Finset.sum (Finset.range (min c.H (y + c.pr + 1) - (y - c.pr))) (fun j =>
    Finset.sum (Finset.range (min c.W (x + c.pr + 1) - (x - c.pr))) (fun i =>
      lamAt c ((y - c.pr + j) * c.W + (x - c.pr + i)))) /
  ((max 1 ((min c.H (y + c.pr + 1) - (y - c.pr)) *
      (min c.W (x + c.pr + 1) - (x - c.pr))) : ℕ) : ℚ)

/-- `box_mean` (source lines 74-82): un-clipped `k×k` mean starting at
`(y0, x0)`. -/
def box_mean (img : ℕ → ℕ → ℚ) (y0 x0 k : ℕ) : ℚ :=
  (Finset.sum (Finset.range k) (fun j =>
    Finset.sum (Finset.range k) (fun i => img (y0 + j) (x0 + i)))) /
  ((k * k : ℕ) : ℚ)

/-- The weighting temperature (source line 157):
`denom = rho * max(lam_x_bar, 1e-8)` where `lam_x_bar` is the box mean of
`lam_hat` over the patch of `(y, x)`. -/
def denomAt (c : Cfg) (y x : ℕ) : ℚ :=
  c.rho * max (box_mean (lam_hatAt c) (y - c.pr) (x - c.pr) (2 * c.pr + 1))
    (1 / 100000000)

/-- Search-window bounds (source lines 160-161). -/
def sy0At (c : Cfg) (y : ℕ) : ℕ := max c.pr (y - c.sr)

/-- Search-window bounds (source lines 160-161). -/
def sy1At (c : Cfg) (y : ℕ) : ℕ := min (c.H - c.pr) (y + c.sr + 1)

/-- Search-window bounds (source lines 160-161). -/
def sx0At (c : Cfg) (x : ℕ) : ℕ := max c.pr (x - c.sr)

/-- Search-window bounds (source lines 160-161). -/
def sx1At (c : Cfg) (x : ℕ) : ℕ := min (c.W - c.pr) (x + c.sr + 1)

/-- One row of candidate coordinates, in scan (column) order. -/
def rowCands (yy sx0 nx : ℕ) : List (ℕ × ℕ) :=
  (List.range nx).map (fun i => (yy, sx0 + i))

/-- Candidate coordinates of a window of `ny` rows starting at `sy0` and
`nx` columns starting at `sx0`, in the nested scan order of the source
loops (source lines 169-184). -/
def scanPairs : ℕ → ℕ → ℕ → ℕ → List (ℕ × ℕ)
  | _, 0, _, _ => []
  | sy0, ny + 1, sx0, nx => rowCands sy0 sx0 nx ++ scanPairs (sy0 + 1) ny sx0 nx

/-- The candidate list `Cs` at pixel `(y, x)`. -/
def CsAt (c : Cfg) (y x : ℕ) : List (ℕ × ℕ) :=
  scanPairs (sy0At c y) (sy1At c y - sy0At c y) (sx0At c x)
    (sx1At c x - sx0At c x)

/-- The patch distance `D(x,y;yy,xx)` (source lines 172-181): sum over all
patch offsets of the cached Poisson distance between the two `lam_hat`
patch pixels. -/
def DpatchAt (c : Cfg) (y x yy xx : ℕ) : ℚ :=
  Finset.sum (Finset.range (2 * c.pr + 1)) (fun j =>
    Finset.sum (Finset.range (2 * c.pr + 1)) (fun i =>
      dlut_query c.sqrtq c.expq
        (lam_hatAt c (y - c.pr + j) (x - c.pr + i))
        (lam_hatAt c (yy - c.pr + j) (xx - c.pr + i)) c.lamq))

/-- The candidate distance list `Ds` at pixel `(y, x)`. -/
def DsAt (c : Cfg) (y x : ℕ) : List ℚ :=
  (CsAt c y x).map (fun p => DpatchAt c y x p.1 p.2)

/-- Distances retained after optional top-k pruning (source lines 188-199):
when `topk > 0 && Ds.size() > topk`, keep the positions chosen by the
selection; otherwise keep everything. -/
def DsSelAt (c : Cfg) (y x : ℕ) : List ℚ :=
  if 0 < c.topk ∧ c.topk < ((DsAt c y x).length : ℤ) then
    (c.sel (DsAt c y x) c.topk.toNat).map (fun i => (DsAt c y x).getD i 0)
  else DsAt c y x

/-- Coordinates retained after optional top-k pruning (source lines
188-199). -/
def CsSelAt (c : Cfg) (y x : ℕ) : List (ℕ × ℕ) :=
  if 0 < c.topk ∧ c.topk < ((DsAt c y x).length : ℤ) then
    (c.sel (DsAt c y x) c.topk.toNat).map (fun i => (CsAt c y x).getD i (0, 0))
  else CsAt c y x

/-- The weight list (source lines 202-207): `w = exp(-Dxy/denom)`. -/
def wsAt (c : Cfg) (y x : ℕ) : List ℚ :=
  (DsSelAt c y x).map (fun d => c.expq (-d / denomAt c y x))

/-- The accumulated weight total `wsum` (source lines 203-207). -/
def wsumAt (c : Cfg) (y x : ℕ) : ℚ := (wsAt c y x).sum

/-- Weights actually used, after the degenerate fallback
`if (wsum <= 0) ws.assign(ws.size(), 1.0)` (source line 208). -/
def wsFinAt (c : Cfg) (y x : ℕ) : List ℚ :=
  if wsumAt c y x ≤ 0 then List.replicate (wsAt c y x).length 1
  else wsAt c y x

/-- Weight total actually used, after the degenerate fallback
`wsum = ws.size()` (source line 208). -/
def wsumFinAt (c : Cfg) (y x : ℕ) : ℚ :=
  if wsumAt c y x ≤ 0 then ((wsAt c y x).length : ℚ) else wsumAt c y x

/-- The weighted average written for an interior pixel (source lines
211-219): `Σ (ws[i]/wsum) * G[Cs[i]]` for both channels. -/
def pixelOutAt (c : Cfg) (y x : ℕ) : ℚ × ℚ :=
  ((((wsFinAt c y x).zip (CsSelAt c y x)).map (fun p =>
      p.1 / wsumFinAt c y x * c.gx (p.2.1 * c.W + p.2.2))).sum,
   (((wsFinAt c y x).zip (CsSelAt c y x)).map (fun p =>
      p.1 / wsumFinAt c y x * c.gy (p.2.1 * c.W + p.2.2))).sum)

/-- The bounds of the interior double loop (source lines 152-153):
`for y in [pr, H-pr), x in [pr, W-pr)`. -/
def isInterior (c : Cfg) (y x : ℕ) : Prop :=
  c.pr ≤ y ∧ y < c.H - c.pr ∧ c.pr ≤ x ∧ x < c.W - c.pr

instance (c : Cfg) (y x : ℕ) : Decidable (isInterior c y x) := by
  unfold isInterior; infer_instance

/-- State of the output buffers after the interior loop (source lines
151-221), starting from the arbitrary freshly-allocated contents `init`:
only pixels inside the loop bounds are written. -/
def interiorPassAt (c : Cfg) (init : ℕ → ℕ → ℚ × ℚ) (y x : ℕ) : ℚ × ℚ :=
  if isInterior c y x then pixelOutAt c y x else init y x

/-- Final output after the boundary pass-through loop (source lines
224-231) overwrites the margin with the input values. -/
def outAt (c : Cfg) (init : ℕ → ℕ → ℚ × ℚ) (y x : ℕ) : ℚ × ℚ :=
  if y < c.pr ∨ c.H - c.pr ≤ y ∨ x < c.pr ∨ c.W - c.pr ≤ x then
    (c.gx (y * c.W + x), c.gy (y * c.W + x))
  else interiorPassAt c init y x

/-- A raw numpy argument at the pybind11 boundary: a shape vector and the
flattened contents. -/
structure NpArr where
  shape : List ℕ
  data : ℕ → ℚ

/-- The shape test of the entry point (source line 96):
`bx.ndim != 2 || by.ndim != 2 || bx.shape[0] != by.shape[0] ||
bx.shape[1] != by.shape[1]`. -/
def shapeBad (a b : NpArr) : Bool :=
  decide (a.shape.length ≠ 2) || decide (b.shape.length ≠ 2) ||
  decide (a.shape.getD 0 0 ≠ b.shape.getD 0 0) ||
  decide (a.shape.getD 1 0 ≠ b.shape.getD 1 0)

/-- The full entry point `poisson_nlm_on_gradient_exact_cpp` (source lines
85-234): validate the shapes, then run the kernel and return the two
output grids and `count_scale`.  The `throw std::runtime_error` is modelled
as `Except.error`. -/
def poisson_nlm_on_gradient_exact_cpp (sqrtq expq : ℚ → ℚ)
    (sel : List ℚ → ℕ → List ℕ) (a b : NpArr) (sr pr : ℕ)
    (rho ctm lamq : ℚ) (topk : ℤ) (init : ℕ → ℕ → ℚ × ℚ) :
    Except String ((ℕ → ℕ → ℚ × ℚ) × ℚ) :=
  if shapeBad a b then Except.error "Gx_p/Gy_p must be same 2D shape"
  else
    let c : Cfg :=
      { sqrtq := sqrtq, expq := expq, sel := sel, gx := a.data, gy := b.data,
        H := a.shape.getD 0 0, W := a.shape.getD 1 0, sr := sr, pr := pr,
        rho := rho, ctm := ctm, lamq := lamq, topk := topk }
    Except.ok (outAt c init, count_scaleAt c)

/-- `true` exactly on the non-error results. -/
def okE {α : Type} : Except String α → Bool
  | Except.ok _ => true
  | Except.error _ => false

/-- The guarantee that `std::nth_element` + `resize(topk)` gives for the
kept index list: `kk` pairwise-distinct valid positions such that every
kept distance is at most every dropped distance. -/
def selContract (sel : List ℚ → ℕ → List ℕ) (l : List ℚ) (kk : ℕ) : Prop :=
  (sel l kk).length = kk ∧ (sel l kk).Nodup ∧
  (∀ i ∈ sel l kk, i < l.length) ∧
  ∀ i ∈ sel l kk, ∀ j ∈ List.range l.length,
    j ∉ sel l kk → l.getD i 0 ≤ l.getD j 0

instance (sel : List ℚ → ℕ → List ℕ) (l : List ℚ) (kk : ℕ) :
    Decidable (selContract sel l kk) := by
  unfold selContract; infer_instance

/-- The top-k hypothesis a pixel computation needs: whenever the pruning
branch of source lines 188-199 is taken, the selection obeys the
`nth_element` contract on that pixel's distance list. -/
def SelOkAt (c : Cfg) (y x : ℕ) : Prop :=
  0 < c.topk → c.topk < ((DsAt c y x).length : ℤ) →
    selContract c.sel (DsAt c y x) c.topk.toNat

/-! ### Generic helper lemmas -/

lemma foldl_add_range (f : ℕ → ℚ) (n : ℕ) : ∀ a : ℚ,
    (List.range n).foldl (fun s i => s + f i) a =
      a + Finset.sum (Finset.range n) f := by
  induction n with
  | zero => intro a; simp
  | succ n ih =>
      intro a
      rw [List.range_succ, List.foldl_append, ih, Finset.sum_range_succ]
      simp [add_assoc]

lemma mem_rowCands (yy sx0 nx : ℕ) (p : ℕ × ℕ) :
    p ∈ rowCands yy sx0 nx ↔ p.1 = yy ∧ sx0 ≤ p.2 ∧ p.2 < sx0 + nx := by
  simp only [rowCands, List.mem_map, List.mem_range, Prod.ext_iff]
  constructor
  · rintro ⟨i, hi, h1, h2⟩; omega
  · rintro ⟨h1, h2, h3⟩; exact ⟨p.2 - sx0, by omega, by omega, by omega⟩

lemma mem_scanPairs : ∀ (ny sy0 sx0 nx : ℕ) (p : ℕ × ℕ),
    p ∈ scanPairs sy0 ny sx0 nx ↔
      sy0 ≤ p.1 ∧ p.1 < sy0 + ny ∧ sx0 ≤ p.2 ∧ p.2 < sx0 + nx := by
  intro ny
  induction ny with
  | zero => intro sy0 sx0 nx p; simp [scanPairs]; omega
  | succ n ih =>
      intro sy0 sx0 nx p
      simp only [scanPairs, List.mem_append, mem_rowCands, ih]
      omega

lemma length_scanPairs : ∀ (ny sy0 sx0 nx : ℕ),
    (scanPairs sy0 ny sx0 nx).length = ny * nx := by
  intro ny
  induction ny with
  | zero => intro sy0 sx0 nx; simp [scanPairs]
  | succ n ih =>
      intro sy0 sx0 nx
      simp only [scanPairs, List.length_append, rowCands, List.length_map,
        List.length_range, ih]
      ring

lemma getD_mem {α : Type} {l : List α} {i : ℕ} (h : i < l.length) (d : α) :
    l.getD i d ∈ l := by
  rw [List.getD_eq_getElem l d h]
  exact List.getElem_mem h

lemma getD_map {α β : Type} (f : α → β) {l : List α} {i : ℕ}
    (h : i < l.length) (d : α) (e : β) :
    (l.map f).getD i e = f (l.getD i d) := by
  rw [List.getD_eq_getElem (l.map f) e (by simpa using h),
    List.getD_eq_getElem l d h, List.getElem_map]

lemma zip_div_fst_sum (s : ℚ) : ∀ (ws : List ℚ) (cs : List (ℕ × ℕ)),
    ws.length = cs.length →
    ((ws.zip cs).map (fun p => p.1 / s)).sum = ws.sum / s := by
  intro ws
  induction ws with
  | nil => intro cs h; simp
  | cons w ws ih =>
      intro cs h
      cases cs with
      | nil => simp at h
      | cons cc cs =>
          simp only [List.zip_cons_cons, List.map_cons, List.sum_cons,
            ih cs (by simpa using h), List.sum_cons, add_div]

lemma zip_const_sum (s v b : ℚ) (g : ℕ × ℕ → ℚ) :
    ∀ (ws : List ℚ) (cs : List (ℕ × ℕ)), ws.length = cs.length →
    (∀ w ∈ ws, w = b) → (∀ p ∈ cs, g p = v) →
    ((ws.zip cs).map (fun p => p.1 / s * g p.2)).sum =
      (ws.length : ℚ) * (b / s * v) := by
  intro ws
  induction ws with
  | nil => intro cs h hw hg; simp
  | cons w ws ih =>
      intro cs h hw hg
      cases cs with
      | nil => simp at h
      | cons cc cs =>
          have hw0 : w = b := hw w (by simp)
          have hg0 : g cc = v := hg cc (by simp)
          simp only [List.zip_cons_cons, List.map_cons, List.sum_cons,
            ih cs (by simpa using h) (fun a ha => hw a (by simp [ha]))
              (fun a ha => hg a (by simp [ha])),
            hw0, hg0, List.length_cons]
          push_cast
          ring

lemma zip_replicate_one_sum (s : ℚ) (g : ℕ × ℕ → ℚ) :
    ∀ cs : List (ℕ × ℕ),
    (((List.replicate cs.length (1 : ℚ)).zip cs).map
      (fun p => p.1 / s * g p.2)).sum = (cs.map g).sum / s := by
  intro cs
  induction cs with
  | nil => simp
  | cons cc cs ih =>
      simp only [List.length_cons, List.replicate_succ, List.zip_cons_cons,
        List.map_cons, List.sum_cons, ih, add_div]
      rw [one_div_mul_eq_div]

lemma sum_eq_length_mul {b : ℚ} : ∀ (l : List ℚ), (∀ w ∈ l, w = b) →
    l.sum = (l.length : ℚ) * b := by
  intro l hl
  rw [List.eq_replicate_of_mem hl, List.sum_replicate, List.length_replicate,
    nsmul_eq_mul]

lemma margin_iff (c : Cfg) (y x : ℕ) :
    (y < c.pr ∨ c.H - c.pr ≤ y ∨ x < c.pr ∨ c.W - c.pr ≤ x) ↔
      ¬ isInterior c y x := by
  unfold isInterior; omega

lemma mem_CsAt {c : Cfg} {y x : ℕ} {p : ℕ × ℕ} :
    p ∈ CsAt c y x ↔ sy0At c y ≤ p.1 ∧ p.1 < sy1At c y ∧
      sx0At c x ≤ p.2 ∧ p.2 < sx1At c x := by
  unfold CsAt
  rw [mem_scanPairs]
  omega

lemma center_mem_CsAt {c : Cfg} {y x : ℕ} (h : isInterior c y x) :
    (y, x) ∈ CsAt c y x := by
  rw [mem_CsAt]
  unfold isInterior at h
  unfold sy0At sy1At sx0At sx1At
  omega

lemma CsAt_length_pos {c : Cfg} {y x : ℕ} (h : isInterior c y x) :
    0 < (CsAt c y x).length :=
  List.length_pos.2 (List.ne_nil_of_mem (center_mem_CsAt h))

lemma DsAt_length (c : Cfg) (y x : ℕ) :
    (DsAt c y x).length = (CsAt c y x).length := by
  simp [DsAt]

lemma CsSelAt_length_eq (c : Cfg) (y x : ℕ) :
    (CsSelAt c y x).length = (DsSelAt c y x).length := by
  unfold CsSelAt DsSelAt
  by_cases hb : 0 < c.topk ∧ c.topk < ((DsAt c y x).length : ℤ)
  · rw [if_pos hb, if_pos hb]; simp
  · rw [if_neg hb, if_neg hb, DsAt_length]

lemma wsAt_length (c : Cfg) (y x : ℕ) :
    (wsAt c y x).length = (DsSelAt c y x).length := by
  simp [wsAt]

lemma DsSelAt_length_pos {c : Cfg} {y x : ℕ} (hi : isInterior c y x)
    (hs : SelOkAt c y x) : 0 < (DsSelAt c y x).length := by
  unfold DsSelAt
  by_cases hb : 0 < c.topk ∧ c.topk < ((DsAt c y x).length : ℤ)
  · rw [if_pos hb]
    rw [List.length_map, (hs hb.1 hb.2).1]
    omega
  · rw [if_neg hb, DsAt_length]
    exact CsAt_length_pos hi

/-! ### Claim C1 -/

/-- Claim C1: for every input pair of shape H×W and every patch radius, every
margin pixel (`y < pr`, `y ≥ H−pr`, `x < pr` or `x ≥ W−pr`) has output
exactly equal to the input (both channels, exact copy), and the interior
weighting loop leaves every margin pixel of the output buffer untouched
(it keeps its arbitrary initial contents `init`). -/
theorem margin_passthrough (c : Cfg) (init : ℕ → ℕ → ℚ × ℚ) (y x : ℕ)
    (h : y < c.pr ∨ c.H - c.pr ≤ y ∨ x < c.pr ∨ c.W - c.pr ≤ x) :
    outAt c init y x = (c.gx (y * c.W + x), c.gy (y * c.W + x)) ∧
    interiorPassAt c init y x = init y x := by
  constructor
  · unfold outAt
    rw [if_pos h]
  · unfold interiorPassAt
    rw [if_neg ((margin_iff c y x).1 h)]

/-- Configuration used by the witness of `margin_passthrough`. -/
def c1Cfg : Cfg :=
  { sqrtq := fun _ => 0, expq := fun _ => 0, sel := fun _ _ => [],
    gx := fun _ => 1, gy := fun _ => 2, H := 2, W := 2, sr := 1, pr := 1,
    rho := 3 / 2, ctm := 30, lamq := 1 / 50, topk := 0 }

theorem margin_passthrough_witness :
    outAt c1Cfg (fun _ _ => (0, 0)) 0 0 =
      (c1Cfg.gx (0 * c1Cfg.W + 0), c1Cfg.gy (0 * c1Cfg.W + 0)) ∧
    interiorPassAt c1Cfg (fun _ _ => (0, 0)) 0 0 = (0, 0) :=
  margin_passthrough c1Cfg (fun _ _ => (0, 0)) 0 0 (by decide)

/-! ### Claim C2 -/

/-- Claim C2 counterexample: the claim says the filter raises exactly when
the inputs are not of identical positive dimensions.  But for two equal
0×0 inputs (rank 2, dimensions equal but zero, hence not positive) the
shape test of source line 96 passes and no error is raised, so the
"positive" part of the claim is false at this input. -/
theorem shape_check_zero_dims :
    okE (poisson_nlm_on_gradient_exact_cpp (fun _ => 0) (fun _ => 0)
        (fun _ _ => []) ⟨[0, 0], fun _ => 0⟩ ⟨[0, 0], fun _ => 0⟩ 3 1 (3 / 2)
        30 (1 / 50) 0 (fun _ _ => (0, 0))) = true ∧
    (⟨[0, 0], fun _ => 0⟩ : NpArr).shape.getD 0 0 = 0 :=
  ⟨rfl, rfl⟩

lemma shapeBad_iff (a b : NpArr) :
    shapeBad a b = true ↔
      ¬(a.shape.length = 2 ∧ b.shape.length = 2 ∧
        a.shape.getD 0 0 = b.shape.getD 0 0 ∧
        a.shape.getD 1 0 = b.shape.getD 1 0) := by
  unfold shapeBad
  simp only [Bool.or_eq_true, decide_eq_true_eq]
  tauto

/-- Claim C2 (amended): the filter fails with the shape-mismatch error
exactly when an input is not 2-D or the two dimension pairs differ;
positivity of the dimensions is NOT checked (zero-sized equal shapes are
accepted).  The error is decided before any computation and the
`Except.error` result carries no partial output. -/
theorem shape_check_iff (sqrtq expq : ℚ → ℚ) (sel : List ℚ → ℕ → List ℕ)
    (a b : NpArr) (sr pr : ℕ) (rho ctm lamq : ℚ) (topk : ℤ)
    (init : ℕ → ℕ → ℚ × ℚ) :
    okE (poisson_nlm_on_gradient_exact_cpp sqrtq expq sel a b sr pr rho ctm
        lamq topk init) = false ↔
      ¬(a.shape.length = 2 ∧ b.shape.length = 2 ∧
        a.shape.getD 0 0 = b.shape.getD 0 0 ∧
        a.shape.getD 1 0 = b.shape.getD 1 0) := by
  rw [← shapeBad_iff]
  unfold poisson_nlm_on_gradient_exact_cpp
  cases hsb : shapeBad a b with
  | false => simp [hsb, okE]
  | true => simp [hsb, okE]

/-! ### Claim C3 -/

/-- Claim C3: the auto-scaler computes the mean over all pixels of
`sqrt(Gx² + Gy²)`; if that mean exceeds `1e-12` the scale is
`count_target_mean / mean`, otherwise `1`; and the rate map satisfies
`λ[y,x] = max 0 (magnitude(y,x) · scale)` at every pixel. -/
theorem auto_scaler_spec (c : Cfg) :
    count_scaleAt c =
      (if 1 / 1000000000000 <
          Finset.sum (Finset.range (c.H * c.W)) (fun i =>
            c.sqrtq (c.gx i * c.gx i + c.gy i * c.gy i)) /
            ((c.H * c.W : ℕ) : ℚ)
        then c.ctm /
          (Finset.sum (Finset.range (c.H * c.W)) (fun i =>
            c.sqrtq (c.gx i * c.gx i + c.gy i * c.gy i)) /
            ((c.H * c.W : ℕ) : ℚ))
        else 1) ∧
    ∀ y x : ℕ, y < c.H → x < c.W →
      lamAt c (y * c.W + x) =
        max 0 (c.sqrtq (c.gx (y * c.W + x) * c.gx (y * c.W + x) +
          c.gy (y * c.W + x) * c.gy (y * c.W + x)) * count_scaleAt c) := by
  constructor
  · unfold count_scaleAt sum_magAt
    rw [foldl_add_range, zero_add]
  · intro y x _ _
    rfl

/-- Configuration used by the witness of `auto_scaler_spec`. -/
def c3Cfg : Cfg :=
  { sqrtq := fun _ => 1, expq := fun _ => 0, sel := fun _ _ => [],
    gx := fun _ => 3, gy := fun _ => 4, H := 1, W := 1, sr := 3, pr := 1,
    rho := 3 / 2, ctm := 30, lamq := 1 / 50, topk := 0 }

theorem auto_scaler_spec_witness :
    lamAt c3Cfg (0 * c3Cfg.W + 0) =
      max 0 (c3Cfg.sqrtq (c3Cfg.gx (0 * c3Cfg.W + 0) * c3Cfg.gx (0 * c3Cfg.W + 0) +
        c3Cfg.gy (0 * c3Cfg.W + 0) * c3Cfg.gy (0 * c3Cfg.W + 0)) *
        count_scaleAt c3Cfg) :=
  (auto_scaler_spec c3Cfg).2 0 0 (by decide) (by decide)

/-! ### Claim C4 -/

/-- Claim C4: the Poisson distance returns 0 on the branch where both rates
are ≤ 0, and otherwise returns the truncated sum
`Σ_{r=0}^{R} (p_x(r) − p_y(r))²` with
`R = ceil(max(λx,λy) + 6·sqrt(max(max(λx,λy), 1e-12)))`, the PMF values
being given by the recurrence `p(0) = e^(−λ)`, `p(r) = p(r−1)·λ/r`
evaluated in lockstep for both rates. -/
theorem poisson_L2_distance_spec (sqrtq expq : ℚ → ℚ) (lx ly : ℚ) :
    poisson_L2_distance sqrtq expq lx ly =
      if lx ≤ 0 ∧ ly ≤ 0 then 0
      else Finset.sum (Finset.range
          ((⌈max lx ly + 6 * sqrtq (max (max lx ly) (1 / 1000000000000))⌉).toNat
            + 1))
        (fun r => (pmfRec expq lx r - pmfRec expq ly r) *
          (pmfRec expq lx r - pmfRec expq ly r)) := by
  unfold poisson_L2_distance poissonRmax
  by_cases h : lx ≤ 0 ∧ ly ≤ 0
  · simp [h]
  · simp [h, pdIter_acc]

/-! ### Claim C5 -/

/-- Claim C5: the Poisson distance is symmetric in its two rates, and
vanishes exactly on the diagonal: `distance(λ, λ) = 0` for every rate. -/
theorem poisson_L2_distance_symm_diag (sqrtq expq : ℚ → ℚ) :
    (∀ lx ly : ℚ, poisson_L2_distance sqrtq expq lx ly =
      poisson_L2_distance sqrtq expq ly lx) ∧
    (∀ l : ℚ, poisson_L2_distance sqrtq expq l l = 0) := by
  constructor
  · intro lx ly
    unfold poisson_L2_distance poissonRmax
    rw [max_comm ly lx]
    by_cases h : lx ≤ 0 ∧ ly ≤ 0
    · rw [if_pos h, if_pos ⟨h.2, h.1⟩]
    · rw [if_neg h, if_neg (fun hh => h ⟨hh.2, hh.1⟩), pdIter_swap]
  · exact poisson_L2_distance_self sqrtq expq

/-! ### Claim C6 -/

/-- The cache invariant: every stored entry is the Poisson distance of its
(quantized) key pair. -/
def cacheGood (sqrtq expq : ℚ → ℚ) (st : Cache) : Prop :=
  ∀ e ∈ st, e.2 = poisson_L2_distance sqrtq expq e.1.1 e.1.2

lemma cacheGood_step (sqrtq expq : ℚ → ℚ) (st : Cache)
    (h : cacheGood sqrtq expq st) (lx ly lamq : ℚ) :
    cacheGood sqrtq expq (dlutQueryS sqrtq expq st lx ly lamq).2 := by
  unfold dlutQueryS
  cases hf : st.find?
      (fun e => decide (e.1 = (quantize lx lamq, quantize ly lamq))) with
  | some e => simpa [hf] using h
  | none =>
      intro e he
      simp only [hf] at he
      rcases List.mem_cons.1 he with he | he
      · rw [he]
      · exact h e he

lemma reachable_good (sqrtq expq : ℚ → ℚ) (st : Cache)
    (h : Reachable sqrtq expq st) : cacheGood sqrtq expq st := by
  induction h with
  | nil => intro e he; simp at he
  | step st lx ly lamq _ ih => exact cacheGood_step sqrtq expq st ih lx ly lamq

/-- Claim C6: the distance cache is a pure function memo.  From every
reachable cache state, a query returns exactly the Poisson L2 distance of
the pair quantized to the nearest multiple of the quantization step (so
identical quantized keys always give identical values and a cached result
never differs from a freshly computed one), and the state stays
reachable. -/
theorem dlut_query_pure_memo (sqrtq expq : ℚ → ℚ) (st : Cache)
    (h : Reachable sqrtq expq st) (lx ly lamq : ℚ) :
    (dlutQueryS sqrtq expq st lx ly lamq).1 =
      poisson_L2_distance sqrtq expq (quantize lx lamq) (quantize ly lamq) ∧
    Reachable sqrtq expq (dlutQueryS sqrtq expq st lx ly lamq).2 := by
  constructor
  · have hg := reachable_good sqrtq expq st h
    unfold dlutQueryS
    cases hf : st.find?
        (fun e => decide (e.1 = (quantize lx lamq, quantize ly lamq))) with
    | some e =>
        have hmem := List.mem_of_find?_eq_some hf
        have hpred := List.find?_some hf
        have hkey : e.1 = (quantize lx lamq, quantize ly lamq) :=
          of_decide_eq_true hpred
        simp only [hf]
        rw [hg e hmem, hkey]
    | none => simp [hf]
  · exact Reachable.step st lx ly lamq h

theorem dlut_query_pure_memo_witness :
    (dlutQueryS (fun _ => 0) (fun _ => 1) [] 5 7 (1 / 50)).1 =
      poisson_L2_distance (fun _ => 0) (fun _ => 1) (quantize 5 (1 / 50))
        (quantize 7 (1 / 50)) ∧
    Reachable (fun _ => 0) (fun _ => 1)
      (dlutQueryS (fun _ => 0) (fun _ => 1) [] 5 7 (1 / 50)).2 :=
  dlut_query_pure_memo (fun _ => 0) (fun _ => 1) [] Reachable.nil 5 7 (1 / 50)

/-! ### Claim C7 -/

lemma CsSelAt_subset {c : Cfg} {y x : ℕ} (hs : SelOkAt c y x) :
    ∀ p ∈ CsSelAt c y x, p ∈ CsAt c y x := by
  intro p hp
  unfold CsSelAt at hp
  by_cases hb : 0 < c.topk ∧ c.topk < ((DsAt c y x).length : ℤ)
  · rw [if_pos hb] at hp
    obtain ⟨i, hi, rfl⟩ := List.mem_map.1 hp
    have hc := hs hb.1 hb.2
    have hlt : i < (DsAt c y x).length := hc.2.2.1 i hi
    rw [DsAt_length] at hlt
    exact getD_mem hlt (0, 0)
  · rw [if_neg hb] at hp
    exact hp

lemma wsFinAt_length (c : Cfg) (y x : ℕ) :
    (wsFinAt c y x).length = (wsAt c y x).length := by
  unfold wsFinAt
  by_cases hz : wsumAt c y x ≤ 0
  · rw [if_pos hz, List.length_replicate]
  · rw [if_neg hz]

/-- Claim C7: for an interior pixel whose retained candidate weights sum to
zero or below, the weighting falls back to uniform weights (every retained
candidate gets weight `1`, normalized by the retained count `n > 0`, i.e.
each candidate gets `1/n`), and the pixel's output is the plain average of
the retained candidates' gradients — a well-defined value, never an
error. -/
theorem degenerate_weight_fallback (c : Cfg) (y x : ℕ)
    (hi : isInterior c y x) (hs : SelOkAt c y x) (hz : wsumAt c y x ≤ 0) :
    wsFinAt c y x = List.replicate (CsSelAt c y x).length 1 ∧
    wsumFinAt c y x = ((CsSelAt c y x).length : ℚ) ∧
    0 < (CsSelAt c y x).length ∧
    pixelOutAt c y x =
      (((CsSelAt c y x).map (fun p => c.gx (p.1 * c.W + p.2))).sum /
        ((CsSelAt c y x).length : ℚ),
       ((CsSelAt c y x).map (fun p => c.gy (p.1 * c.W + p.2))).sum /
        ((CsSelAt c y x).length : ℚ)) := by
  have hl : (wsAt c y x).length = (CsSelAt c y x).length := by
    rw [wsAt_length, CsSelAt_length_eq]
  have h1 : wsFinAt c y x = List.replicate (CsSelAt c y x).length 1 := by
    unfold wsFinAt
    rw [if_pos hz, hl]
  have h2 : wsumFinAt c y x = ((CsSelAt c y x).length : ℚ) := by
    unfold wsumFinAt
    rw [if_pos hz, hl]
  have h3 : 0 < (CsSelAt c y x).length := by
    rw [CsSelAt_length_eq]
    exact DsSelAt_length_pos hi hs
  refine ⟨h1, h2, h3, ?_⟩
  unfold pixelOutAt
  rw [h1, h2, Prod.mk.injEq]
  constructor
  · have e1 : (((List.replicate (CsSelAt c y x).length (1 : ℚ)).zip
        (CsSelAt c y x)).map (fun p =>
          p.1 / ((CsSelAt c y x).length : ℚ) *
            c.gx (p.2.1 * c.W + p.2.2))).sum =
        ((CsSelAt c y x).map (fun q => c.gx (q.1 * c.W + q.2))).sum /
          ((CsSelAt c y x).length : ℚ) :=
      zip_replicate_one_sum ((CsSelAt c y x).length : ℚ)
        (fun q => c.gx (q.1 * c.W + q.2)) (CsSelAt c y x)
    exact e1
  · have e1 : (((List.replicate (CsSelAt c y x).length (1 : ℚ)).zip
        (CsSelAt c y x)).map (fun p =>
          p.1 / ((CsSelAt c y x).length : ℚ) *
            c.gy (p.2.1 * c.W + p.2.2))).sum =
        ((CsSelAt c y x).map (fun q => c.gy (q.1 * c.W + q.2))).sum /
          ((CsSelAt c y x).length : ℚ) :=
      zip_replicate_one_sum ((CsSelAt c y x).length : ℚ)
        (fun q => c.gy (q.1 * c.W + q.2)) (CsSelAt c y x)
    exact e1

/-- Configuration used by the witness of `degenerate_weight_fallback`: the
abstract `exp` returns 0, so every weight underflows to 0 and the fallback
triggers. -/
def c7Cfg : Cfg :=
  { sqrtq := fun _ => 0, expq := fun _ => 0, sel := fun _ _ => [],
    gx := fun _ => 2, gy := fun _ => 3, H := 3, W := 3, sr := 1, pr := 1,
    rho := 3 / 2, ctm := 30, lamq := 1 / 50, topk := 0 }

theorem degenerate_weight_fallback_witness :
    wsFinAt c7Cfg 1 1 = List.replicate (CsSelAt c7Cfg 1 1).length 1 ∧
    wsumFinAt c7Cfg 1 1 = ((CsSelAt c7Cfg 1 1).length : ℚ) ∧
    0 < (CsSelAt c7Cfg 1 1).length ∧
    pixelOutAt c7Cfg 1 1 =
      (((CsSelAt c7Cfg 1 1).map (fun p => c7Cfg.gx (p.1 * c7Cfg.W + p.2))).sum /
        ((CsSelAt c7Cfg 1 1).length : ℚ),
       ((CsSelAt c7Cfg 1 1).map (fun p => c7Cfg.gy (p.1 * c7Cfg.W + p.2))).sum /
        ((CsSelAt c7Cfg 1 1).length : ℚ)) :=
  degenerate_weight_fallback c7Cfg 1 1 (by decide)
    (fun h => absurd h (by decide))
    (by
      have hws : ∀ w ∈ wsAt c7Cfg 1 1, w = 0 := by
        intro w hw
        unfold wsAt at hw
        obtain ⟨d, _, rfl⟩ := List.mem_map.1 hw
        rfl
      unfold wsumAt
      rw [sum_eq_length_mul (wsAt c7Cfg 1 1) hws, mul_zero])

/-! ### Claim C10 -/

/-- Claim C10: for every interior pixel, every search radius and every topk
value (under the `nth_element` contract and positivity of `exp`), the
candidate set is non-empty and contains the center, at least one candidate
is retained, the weight normalization divides by a strictly positive sum,
and the output is a convex combination (non-negative weights summing to 1)
of input gradient values at search-window coordinates. -/
theorem interior_convex_combination (c : Cfg) (y x : ℕ)
    (hi : isInterior c y x) (hs : SelOkAt c y x)
    (hexp : ∀ t : ℚ, 0 < c.expq t) :
    0 < (CsAt c y x).length ∧ (y, x) ∈ CsAt c y x ∧
    0 < (CsSelAt c y x).length ∧ 0 < wsumFinAt c y x ∧
    ∃ l : List (ℚ × (ℕ × ℕ)),
      l.length = (CsSelAt c y x).length ∧
      (∀ p ∈ l, 0 ≤ p.1 ∧ p.2 ∈ CsAt c y x) ∧
      (l.map Prod.fst).sum = 1 ∧
      pixelOutAt c y x =
        ((l.map (fun p => p.1 * c.gx (p.2.1 * c.W + p.2.2))).sum,
         (l.map (fun p => p.1 * c.gy (p.2.1 * c.W + p.2.2))).sum) := by
  have hcl : (wsAt c y x).length = (CsSelAt c y x).length := by
    rw [wsAt_length, CsSelAt_length_eq]
  have hlen : 0 < (CsSelAt c y x).length := by
    rw [CsSelAt_length_eq]
    exact DsSelAt_length_pos hi hs
  have hwpos : ∀ w ∈ wsAt c y x, 0 < w := by
    intro w hw
    obtain ⟨d, _, rfl⟩ := List.mem_map.1 hw
    exact hexp _
  have hne : wsAt c y x ≠ [] := by
    rw [← List.length_pos, hcl]
    exact hlen
  have hwsum : 0 < wsumAt c y x := List.sum_pos _ hwpos hne
  have hznot : ¬ wsumAt c y x ≤ 0 := not_le.2 hwsum
  have h1 : wsFinAt c y x = wsAt c y x := by
    unfold wsFinAt
    rw [if_neg hznot]
  have h2 : wsumFinAt c y x = wsumAt c y x := by
    unfold wsumFinAt
    rw [if_neg hznot]
  refine ⟨CsAt_length_pos hi, center_mem_CsAt hi, hlen, by rw [h2]; exact hwsum,
    ((wsAt c y x).zip (CsSelAt c y x)).map
      (fun p => (p.1 / wsumAt c y x, p.2)), ?_, ?_, ?_, ?_⟩
  · rw [List.length_map, List.length_zip, hcl, min_self]
  · intro p hp
    obtain ⟨q, hq, rfl⟩ := List.mem_map.1 hp
    have hq2 := List.of_mem_zip hq
    exact ⟨le_of_lt (div_pos (hwpos q.1 hq2.1) hwsum),
      CsSelAt_subset hs q.2 hq2.2⟩
  · rw [List.map_map]
    have e1 : (((wsAt c y x).zip (CsSelAt c y x)).map
        (fun p => p.1 / wsumAt c y x)).sum = (wsAt c y x).sum / wsumAt c y x :=
      zip_div_fst_sum (wsumAt c y x) (wsAt c y x) (CsSelAt c y x) hcl
    rw [show (Prod.fst ∘ fun p : ℚ × (ℕ × ℕ) => (p.1 / wsumAt c y x, p.2)) =
        (fun p : ℚ × (ℕ × ℕ) => p.1 / wsumAt c y x) from rfl, e1]
    exact div_self (ne_of_gt hwsum)
  · unfold pixelOutAt
    rw [h1, h2, List.map_map, List.map_map]
    rfl

/-- Configuration used by the witness of `interior_convex_combination`. -/
def c10Cfg : Cfg :=
  { sqrtq := fun _ => 0, expq := fun _ => 1, sel := fun _ _ => [],
    gx := fun _ => 2, gy := fun _ => 3, H := 3, W := 3, sr := 1, pr := 1,
    rho := 3 / 2, ctm := 30, lamq := 1 / 50, topk := 0 }

theorem interior_convex_combination_witness :
    0 < (CsAt c10Cfg 1 1).length ∧ (1, 1) ∈ CsAt c10Cfg 1 1 ∧
    0 < (CsSelAt c10Cfg 1 1).length ∧ 0 < wsumFinAt c10Cfg 1 1 ∧
    ∃ l : List (ℚ × (ℕ × ℕ)),
      l.length = (CsSelAt c10Cfg 1 1).length ∧
      (∀ p ∈ l, 0 ≤ p.1 ∧ p.2 ∈ CsAt c10Cfg 1 1) ∧
      (l.map Prod.fst).sum = 1 ∧
      pixelOutAt c10Cfg 1 1 =
        ((l.map (fun p => p.1 * c10Cfg.gx (p.2.1 * c10Cfg.W + p.2.2))).sum,
         (l.map (fun p => p.1 * c10Cfg.gy (p.2.1 * c10Cfg.W + p.2.2))).sum) :=
  interior_convex_combination c10Cfg 1 1 (by decide)
    (fun h => absurd h (by decide)) (fun _ => zero_lt_one)

/-! ### Claim C8 -/

lemma dlut_query_self (sqrtq expq : ℚ → ℚ) (l q : ℚ) :
    dlut_query sqrtq expq l l q = 0 := by
  unfold dlut_query
  exact poisson_L2_distance_self sqrtq expq _

/-- When exactly one candidate is retained, the output is that candidate's
gradient pair, whatever its weight is (positive weight normalizes to 1;
non-positive weight triggers the uniform fallback, which over a single
candidate is also weight 1). -/
lemma pixel_singleton (c : Cfg) (y x : ℕ) (d0 : ℚ) (c0 : ℕ × ℕ)
    (hD : DsSelAt c y x = [d0]) (hC : CsSelAt c y x = [c0]) :
    pixelOutAt c y x = (c.gx (c0.1 * c.W + c0.2), c.gy (c0.1 * c.W + c0.2)) := by
  have hws : wsAt c y x = [c.expq (-d0 / denomAt c y x)] := by
    unfold wsAt
    rw [hD]
    rfl
  have hsum : wsumAt c y x = c.expq (-d0 / denomAt c y x) := by
    unfold wsumAt
    rw [hws]
    simp
  by_cases hz : wsumAt c y x ≤ 0
  · have h1 : wsFinAt c y x = [1] := by
      unfold wsFinAt
      rw [if_pos hz, hws]
      rfl
    have h2 : wsumFinAt c y x = 1 := by
      unfold wsumFinAt
      rw [if_pos hz, hws]
      simp
    unfold pixelOutAt
    rw [h1, h2, hC]
    simp
  · have hwpos : 0 < c.expq (-d0 / denomAt c y x) := by
      rw [← hsum]
      exact not_le.1 hz
    have h1 : wsFinAt c y x = [c.expq (-d0 / denomAt c y x)] := by
      unfold wsFinAt
      rw [if_neg hz]
      exact hws
    have h2 : wsumFinAt c y x = c.expq (-d0 / denomAt c y x) := by
      unfold wsumFinAt
      rw [if_neg hz]
      exact hsum
    unfold pixelOutAt
    rw [h1, h2, hC]
    simp [div_self (ne_of_gt hwpos)]

/-- Claim C8 (amended): with `topk = 1`, the output of an interior pixel is
the input gradient of a candidate attaining the minimum patch distance in
the search window.  Which of several tied minimal candidates is picked is
NOT determined by the code (see `topk1_tie_not_first`), so the claim's
"ties broken by first-encountered order" is dropped. -/
theorem topk1_nearest (c : Cfg) (y x : ℕ) (hi : isInterior c y x)
    (ht : c.topk = 1) (hs : SelOkAt c y x) :
    ∃ q : ℕ × ℕ, q ∈ CsAt c y x ∧
      (∀ d ∈ DsAt c y x, DpatchAt c y x q.1 q.2 ≤ d) ∧
      pixelOutAt c y x =
        (c.gx (q.1 * c.W + q.2), c.gy (q.1 * c.W + q.2)) := by
  by_cases hb : 0 < c.topk ∧ c.topk < ((DsAt c y x).length : ℤ)
  · have hc := hs hb.1 hb.2
    obtain ⟨i0, hsel1⟩ : ∃ i0, c.sel (DsAt c y x) c.topk.toNat = [i0] := by
      have hlen1 : (c.sel (DsAt c y x) c.topk.toNat).length = 1 := by
        rw [hc.1, ht]
        rfl
      exact List.length_eq_one.1 hlen1
    have hmem1 : i0 ∈ c.sel (DsAt c y x) c.topk.toNat := by
      rw [hsel1]
      simp
    have hi0 : i0 < (DsAt c y x).length := hc.2.2.1 i0 hmem1
    have hi0c : i0 < (CsAt c y x).length := by
      rw [← DsAt_length]
      exact hi0
    have hD : DsSelAt c y x = [(DsAt c y x).getD i0 0] := by
      unfold DsSelAt
      rw [if_pos hb, hsel1]
      rfl
    have hC : CsSelAt c y x = [(CsAt c y x).getD i0 (0, 0)] := by
      unfold CsSelAt
      rw [if_pos hb, hsel1]
      rfl
    refine ⟨(CsAt c y x).getD i0 (0, 0), getD_mem hi0c (0, 0), ?_,
      pixel_singleton c y x _ _ hD hC⟩
    intro d hd
    have hde : (DsAt c y x).getD i0 0 =
        DpatchAt c y x ((CsAt c y x).getD i0 (0, 0)).1
          ((CsAt c y x).getD i0 (0, 0)).2 := by
      unfold DsAt
      rw [getD_map (fun p : ℕ × ℕ => DpatchAt c y x p.1 p.2) hi0c (0, 0) 0]
    rw [← hde]
    obtain ⟨j, hj, rfl⟩ := List.mem_iff_getElem.1 hd
    by_cases hji : j = i0
    · subst hji
      rw [List.getD_eq_getElem _ 0 hi0]
    · have hnm : j ∉ c.sel (DsAt c y x) c.topk.toNat := by
        rw [hsel1]
        simp [hji]
      have hle := hc.2.2.2 i0 hmem1 j (List.mem_range.2 hj) hnm
      rw [List.getD_eq_getElem _ 0 hj] at hle
      exact hle
  · have hnot : ¬ ((1 : ℤ) < ((DsAt c y x).length : ℤ)) := fun hlt =>
      hb ⟨by rw [ht]; exact one_pos, by rw [ht]; exact hlt⟩
    have hlen1 : (CsAt c y x).length = 1 := by
      have hp := CsAt_length_pos hi
      rw [DsAt_length] at hnot
      omega
    obtain ⟨c0, hc0⟩ := List.length_eq_one.1 hlen1
    have hDs : DsAt c y x = [DpatchAt c y x c0.1 c0.2] := by
      unfold DsAt
      rw [hc0]
      rfl
    have hD : DsSelAt c y x = [DpatchAt c y x c0.1 c0.2] := by
      unfold DsSelAt
      rw [if_neg hb]
      exact hDs
    have hC : CsSelAt c y x = [c0] := by
      unfold CsSelAt
      rw [if_neg hb]
      exact hc0
    refine ⟨c0, by rw [hc0]; simp, ?_, pixel_singleton c y x _ _ hD hC⟩
    intro d hd
    rw [hDs] at hd
    simp only [List.mem_singleton] at hd
    rw [hd]

/-- Configuration used by the witness of `topk1_nearest`. -/
def c8wCfg : Cfg :=
  { sqrtq := fun _ => 0, expq := fun _ => 0, sel := fun _ _ => [],
    gx := fun _ => 2, gy := fun _ => 3, H := 3, W := 3, sr := 1, pr := 1,
    rho := 3 / 2, ctm := 30, lamq := 1 / 50, topk := 1 }

theorem topk1_nearest_witness :
    ∃ q : ℕ × ℕ, q ∈ CsAt c8wCfg 1 1 ∧
      (∀ d ∈ DsAt c8wCfg 1 1, DpatchAt c8wCfg 1 1 q.1 q.2 ≤ d) ∧
      pixelOutAt c8wCfg 1 1 =
        (c8wCfg.gx (q.1 * c8wCfg.W + q.2), c8wCfg.gy (q.1 * c8wCfg.W + q.2)) :=
  topk1_nearest c8wCfg 1 1 (by decide) rfl
    (fun _ h2 => absurd h2 (by decide))

/-- A selection keeping only position 1 (conforms to the `nth_element`
contract whenever position 1 holds a minimal distance). -/
def selBad : List ℚ → ℕ → List ℕ := fun _ _ => [1]

/-- A selection keeping only position 0. -/
def selFirst : List ℚ → ℕ → List ℕ := fun _ _ => [0]

/-- The counterexample input family for claim C8: a 3×5 field whose rate
map is uniformly zero (the abstract `sqrt` returns 0), so all candidate
patch distances tie at the minimum 0, while the `Gx` values differ from
pixel to pixel. -/
def c8Base (s : List ℚ → ℕ → List ℕ) : Cfg :=
  { sqrtq := fun _ => 0, expq := fun _ => 1, sel := s,
    gx := fun i => (i : ℚ), gy := fun _ => 0, H := 3, W := 5, sr := 1,
    pr := 1, rho := 3 / 2, ctm := 30, lamq := 1 / 50, topk := 1 }

lemma lam8 (s : List ℚ → ℕ → List ℕ) (i : ℕ) : lamAt (c8Base s) i = 0 := by
  have h0 : (c8Base s).sqrtq
      ((c8Base s).gx i * (c8Base s).gx i +
        (c8Base s).gy i * (c8Base s).gy i) = 0 := rfl
  unfold lamAt
  rw [h0, zero_mul]
  exact max_self 0

lemma lamhat8 (s : List ℚ → ℕ → List ℕ) (y x : ℕ) :
    lam_hatAt (c8Base s) y x = 0 := by
  unfold lam_hatAt
  simp [lam8]

lemma dpatch8 (s : List ℚ → ℕ → List ℕ) (y x yy xx : ℕ) :
    DpatchAt (c8Base s) y x yy xx = 0 := by
  unfold DpatchAt
  simp [lamhat8, dlut_query_self]

lemma Cs8 (s : List ℚ → ℕ → List ℕ) :
    CsAt (c8Base s) 1 2 = [(1, 1), (1, 2), (1, 3)] := rfl

lemma Ds8 (s : List ℚ → ℕ → List ℕ) :
    DsAt (c8Base s) 1 2 = [0, 0, 0] := by
  unfold DsAt
  rw [Cs8]
  simp [dpatch8]

/-- Claim C8 counterexample: at pixel (1,2) of the `c8Base` field all three
candidates (1,1), (1,2), (1,3) tie at the minimal patch distance 0; the
first-encountered minimal candidate is (1,1) (position 0), whose gradient
is 6.  Both single-position selections satisfy the `nth_element` contract
on this distance list, yet the conforming selection `selBad` produces
output 7 — the gradient of candidate (1,2) — instead of 6.  Hence the
code does not guarantee the claimed first-encountered tie-breaking: the
output with `topk = 1` is only some minimal-distance candidate's
gradient. -/
theorem topk1_tie_not_first :
    selContract selBad (DsAt (c8Base selBad) 1 2) 1 ∧
    selContract selFirst (DsAt (c8Base selFirst) 1 2) 1 ∧
    (∀ d ∈ DsAt (c8Base selBad) 1 2, (DsAt (c8Base selBad) 1 2).getD 0 0 ≤ d) ∧
    (CsAt (c8Base selBad) 1 2).getD 0 (0, 0) = (1, 1) ∧
    (c8Base selBad).gx (1 * (c8Base selBad).W + 1) = 6 ∧
    pixelOutAt (c8Base selFirst) 1 2 = (6, 0) ∧
    pixelOutAt (c8Base selBad) 1 2 = (7, 0) := by
  have hb : ∀ s : List ℚ → ℕ → List ℕ, 0 < (c8Base s).topk ∧
      (c8Base s).topk < ((DsAt (c8Base s) 1 2).length : ℤ) := by
    intro s
    rw [Ds8 s]
    exact ⟨one_pos, (by decide : (1 : ℤ) < ((3 : ℕ) : ℤ))⟩
  constructor
  · rw [Ds8 selBad]
    exact ⟨rfl, by decide, by decide, by decide⟩
  constructor
  · rw [Ds8 selFirst]
    exact ⟨rfl, by decide, by decide, by decide⟩
  constructor
  · rw [Ds8 selBad]
    decide
  constructor
  · rfl
  constructor
  · norm_num [c8Base]
  constructor
  · have hD : DsSelAt (c8Base selFirst) 1 2 = [(0 : ℚ)] := by
      unfold DsSelAt
      rw [if_pos (hb selFirst), Ds8 selFirst]
      rfl
    have hC : CsSelAt (c8Base selFirst) 1 2 = [(1, 1)] := by
      unfold CsSelAt
      rw [if_pos (hb selFirst)]
      rfl
    rw [pixel_singleton (c8Base selFirst) 1 2 0 (1, 1) hD hC]
    norm_num [c8Base]
  · have hD : DsSelAt (c8Base selBad) 1 2 = [(0 : ℚ)] := by
      unfold DsSelAt
      rw [if_pos (hb selBad), Ds8 selBad]
      rfl
    have hC : CsSelAt (c8Base selBad) 1 2 = [(1, 2)] := by
      unfold CsSelAt
      rw [if_pos (hb selBad)]
      rfl
    rw [pixel_singleton (c8Base selBad) 1 2 0 (1, 2) hD hC]
    norm_num [c8Base]

/-! ### Claim C9 -/

/-- A pixel whose retained weights are all equal and whose retained
candidates all carry the same gradient pair outputs exactly that pair,
through either the normalized-weight path or the uniform fallback. -/
lemma pixel_const (c : Cfg) (y x : ℕ) (a vx vy : ℚ)
    (hws : ∀ w ∈ wsAt c y x, w = a)
    (hlen : 0 < (CsSelAt c y x).length)
    (hgx : ∀ p ∈ CsSelAt c y x, c.gx (p.1 * c.W + p.2) = vx)
    (hgy : ∀ p ∈ CsSelAt c y x, c.gy (p.1 * c.W + p.2) = vy) :
    pixelOutAt c y x = (vx, vy) := by
  have hl : (wsAt c y x).length = (CsSelAt c y x).length := by
    rw [wsAt_length, CsSelAt_length_eq]
  have hne : ((CsSelAt c y x).length : ℚ) ≠ 0 := by
    exact_mod_cast Nat.pos_iff_ne_zero.1 hlen
  have hsum : wsumAt c y x = ((CsSelAt c y x).length : ℚ) * a := by
    unfold wsumAt
    rw [sum_eq_length_mul (wsAt c y x) hws, hl]
  by_cases hz : wsumAt c y x ≤ 0
  · have h1 : wsFinAt c y x = List.replicate (CsSelAt c y x).length 1 := by
      unfold wsFinAt
      rw [if_pos hz, hl]
    have h2 : wsumFinAt c y x = ((CsSelAt c y x).length : ℚ) := by
      unfold wsumFinAt
      rw [if_pos hz, hl]
    unfold pixelOutAt
    rw [h1, h2, Prod.mk.injEq]
    constructor
    · have e1 : (((List.replicate (CsSelAt c y x).length (1 : ℚ)).zip
          (CsSelAt c y x)).map (fun p =>
            p.1 / ((CsSelAt c y x).length : ℚ) *
              c.gx (p.2.1 * c.W + p.2.2))).sum =
          ((List.replicate (CsSelAt c y x).length (1 : ℚ)).length : ℚ) *
            (1 / ((CsSelAt c y x).length : ℚ) * vx) :=
        zip_const_sum ((CsSelAt c y x).length : ℚ) vx 1
          (fun q => c.gx (q.1 * c.W + q.2)) _ (CsSelAt c y x) (by simp)
          (fun w hw => List.eq_of_mem_replicate hw) hgx
      rw [e1, List.length_replicate, ← mul_assoc, mul_one_div_cancel hne,
        one_mul]
    · have e1 : (((List.replicate (CsSelAt c y x).length (1 : ℚ)).zip
          (CsSelAt c y x)).map (fun p =>
            p.1 / ((CsSelAt c y x).length : ℚ) *
              c.gy (p.2.1 * c.W + p.2.2))).sum =
          ((List.replicate (CsSelAt c y x).length (1 : ℚ)).length : ℚ) *
            (1 / ((CsSelAt c y x).length : ℚ) * vy) :=
        zip_const_sum ((CsSelAt c y x).length : ℚ) vy 1
          (fun q => c.gy (q.1 * c.W + q.2)) _ (CsSelAt c y x) (by simp)
          (fun w hw => List.eq_of_mem_replicate hw) hgy
      rw [e1, List.length_replicate, ← mul_assoc, mul_one_div_cancel hne,
        one_mul]
  · have hapos : 0 < ((CsSelAt c y x).length : ℚ) * a := by
      rw [← hsum]
      exact not_le.1 hz
    have hane : a ≠ 0 := by
      rintro rfl
      rw [mul_zero] at hapos
      exact lt_irrefl 0 hapos
    have h1 : wsFinAt c y x = wsAt c y x := by
      unfold wsFinAt
      rw [if_neg hz]
    have h2 : wsumFinAt c y x = wsumAt c y x := by
      unfold wsumFinAt
      rw [if_neg hz]
    unfold pixelOutAt
    rw [h1, h2, Prod.mk.injEq]
    constructor
    · have e1 : (((wsAt c y x).zip (CsSelAt c y x)).map (fun p =>
          p.1 / wsumAt c y x * c.gx (p.2.1 * c.W + p.2.2))).sum =
          ((wsAt c y x).length : ℚ) * (a / wsumAt c y x * vx) :=
        zip_const_sum (wsumAt c y x) vx a
          (fun q => c.gx (q.1 * c.W + q.2)) (wsAt c y x) (CsSelAt c y x) hl
          hws hgx
      rw [e1, hsum, hl]
      field_simp
      ring
    · have e1 : (((wsAt c y x).zip (CsSelAt c y x)).map (fun p =>
          p.1 / wsumAt c y x * c.gy (p.2.1 * c.W + p.2.2))).sum =
          ((wsAt c y x).length : ℚ) * (a / wsumAt c y x * vy) :=
        zip_const_sum (wsumAt c y x) vy a
          (fun q => c.gy (q.1 * c.W + q.2)) (wsAt c y x) (CsSelAt c y x) hl
          hws hgy
      rw [e1, hsum, hl]
      field_simp
      ring

/-- The concrete 9×9 input of claim C9: `Gx = Gy = 5` everywhere,
`search_radius = 2`, `patch_radius = 1`, `topk = 0` and the default
`rho = 1.5`, `count_target_mean = 30`, `lam_quant = 0.02`. -/
def c9Cfg (sq ex : ℚ → ℚ) : Cfg :=
  { sqrtq := sq, expq := ex, sel := fun _ _ => [], gx := fun _ => 5,
    gy := fun _ => 5, H := 9, W := 9, sr := 2, pr := 1, rho := 3 / 2,
    ctm := 30, lamq := 1 / 50, topk := 0 }

lemma lam9 (sq ex : ℚ → ℚ) (i : ℕ) :
    lamAt (c9Cfg sq ex) i =
      max 0 (sq (5 * 5 + 5 * 5) * count_scaleAt (c9Cfg sq ex)) := rfl

lemma lamhat9 (sq ex : ℚ → ℚ) (y x : ℕ) (hy : y < 9) (hx : x < 9) :
    lam_hatAt (c9Cfg sq ex) y x =
      max 0 (sq (5 * 5 + 5 * 5) * count_scaleAt (c9Cfg sq ex)) := by
  have hH : (c9Cfg sq ex).H = 9 := rfl
  have hW : (c9Cfg sq ex).W = 9 := rfl
  have hpr : (c9Cfg sq ex).pr = 1 := rfl
  unfold lam_hatAt
  rw [hH, hW, hpr]
  simp only [lam9]
  rw [Finset.sum_const, Finset.sum_const, Finset.card_range,
    Finset.card_range, smul_smul, nsmul_eq_mul]
  have h1 : 0 < min 9 (y + 1 + 1) - (y - 1) := by omega
  have h2 : 0 < min 9 (x + 1 + 1) - (x - 1) := by omega
  have hp : 0 < (min 9 (y + 1 + 1) - (y - 1)) *
      (min 9 (x + 1 + 1) - (x - 1)) := Nat.mul_pos h1 h2
  have hcnt : max 1 ((min 9 (y + 1 + 1) - (y - 1)) *
      (min 9 (x + 1 + 1) - (x - 1))) =
      (min 9 (y + 1 + 1) - (y - 1)) * (min 9 (x + 1 + 1) - (x - 1)) :=
    Nat.max_eq_right hp
  rw [hcnt]
  have hne : (((min 9 (y + 1 + 1) - (y - 1)) *
      (min 9 (x + 1 + 1) - (x - 1)) : ℕ) : ℚ) ≠ 0 := by
    exact_mod_cast Nat.pos_iff_ne_zero.1 hp
  exact mul_div_cancel_left₀ _ hne

lemma dpatch9 (sq ex : ℚ → ℚ) (y x yy xx : ℕ) (hy : y ≤ 7) (hx : x ≤ 7)
    (hyy : yy ≤ 7) (hxx : xx ≤ 7) :
    DpatchAt (c9Cfg sq ex) y x yy xx = 0 := by
  have hpr : (c9Cfg sq ex).pr = 1 := rfl
  unfold DpatchAt
  rw [hpr]
  apply Finset.sum_eq_zero
  intro j hj
  apply Finset.sum_eq_zero
  intro i hi
  rw [Finset.mem_range] at hj hi
  rw [lamhat9 sq ex _ _ (by omega) (by omega),
    lamhat9 sq ex _ _ (by omega) (by omega), dlut_query_self]

/-- Claim C9: on the 9×9 uniform field with `Gx = Gy = 5` everywhere,
`search_radius = 2`, `patch_radius = 1`, `topk = 0` and default scalar
parameters, the output equals 5 at every pixel — interior pixels through
the weighting path and margin pixels through the boundary pass-through
(uniform input is a fixed point of the filter). -/
theorem uniform_fixed_point (sq ex : ℚ → ℚ) (init : ℕ → ℕ → ℚ × ℚ)
    (y x : ℕ) (hy : y < 9) (hx : x < 9) :
    outAt (c9Cfg sq ex) init y x = (5, 5) := by
  unfold outAt
  by_cases hm : y < (c9Cfg sq ex).pr ∨ (c9Cfg sq ex).H - (c9Cfg sq ex).pr ≤ y ∨
      x < (c9Cfg sq ex).pr ∨ (c9Cfg sq ex).W - (c9Cfg sq ex).pr ≤ x
  · rw [if_pos hm]
    rfl
  · rw [if_neg hm]
    have hi : isInterior (c9Cfg sq ex) y x := by
      rw [margin_iff] at hm
      exact not_not.1 hm
    unfold interiorPassAt
    rw [if_pos hi]
    have hib : 1 ≤ y ∧ y < 8 ∧ 1 ≤ x ∧ x < 8 := hi
    have hsel0 : ¬ (0 < (c9Cfg sq ex).topk ∧
        (c9Cfg sq ex).topk < ((DsAt (c9Cfg sq ex) y x).length : ℤ)) := by
      intro h
      exact (by decide : ¬ (0 : ℤ) < 0) h.1
    have hDSel : DsSelAt (c9Cfg sq ex) y x = DsAt (c9Cfg sq ex) y x := by
      unfold DsSelAt
      rw [if_neg hsel0]
    have hCSel : CsSelAt (c9Cfg sq ex) y x = CsAt (c9Cfg sq ex) y x := by
      unfold CsSelAt
      rw [if_neg hsel0]
    have hDs0 : ∀ d ∈ DsAt (c9Cfg sq ex) y x, d = 0 := by
      intro d hd
      unfold DsAt at hd
      obtain ⟨p, hp, rfl⟩ := List.mem_map.1 hd
      have hpb := mem_CsAt.1 hp
      have hy1 : p.1 < min ((c9Cfg sq ex).H - (c9Cfg sq ex).pr)
          (y + (c9Cfg sq ex).sr + 1) := hpb.2.1
      have hx1 : p.2 < min ((c9Cfg sq ex).W - (c9Cfg sq ex).pr)
          (x + (c9Cfg sq ex).sr + 1) := hpb.2.2.2
      have hy2 : p.1 < min 8 (y + 2 + 1) := hy1
      have hx2 : p.2 < min 8 (x + 2 + 1) := hx1
      exact dpatch9 sq ex y x p.1 p.2 (by omega) (by omega) (by omega)
        (by omega)
    apply pixel_const (c9Cfg sq ex) y x (ex 0) 5 5
    · intro w hw
      unfold wsAt at hw
      rw [hDSel] at hw
      obtain ⟨d, hd, rfl⟩ := List.mem_map.1 hw
      rw [hDs0 d hd, neg_zero, zero_div]
      rfl
    · rw [hCSel]
      exact CsAt_length_pos hi
    · intro p _
      rfl
    · intro p _
      rfl

theorem uniform_fixed_point_witness :
    outAt (c9Cfg (fun _ => 0) (fun _ => 0)) (fun _ _ => (0, 0)) 0 0 =
      (5, 5) :=
  uniform_fixed_point (fun _ => 0) (fun _ => 0) (fun _ _ => (0, 0)) 0 0
    (by decide) (by decide)

end PoissonNLM
